import Mathlib

/-!
# victoriametrics-balancer: membership registry, reconciler and broadcast collection

A shallow embedding of `internal/upstreams/vmupstreams.go` and of PromHandler and
asyncHTTPPost of `internal/handlers/vmhandlers.go`.

Modelling conventions.

* A Go `int` is an `Int` (no arithmetic is done on ports, only comparison and printing).
* A Go `error` is an `Option String` (`none` is `nil`).
* A Go run-time panic (index out of range) is the result `none` of a function whose
  result type is `Option _`.
* The slice `v.UList` is kept as the list of its elements (indices `0 .. len-1`) together
  with the cells of its backing array that lie between `len` and `cap`, so that
  `cap(v.UList) = UList.length + spare.length`.  `append` writes into the first spare
  cell when there is one and moves the slice to a fresh, larger array otherwise; how much
  larger is decided by the Go runtime and is a parameter `slack` of the model.
* Inside LoadUpstreams the local slice `uslist` (the header returned by UpstreamList) and
  `v.UList` point into the same backing array, so a write through `v.UList` is seen by a
  later read of `uslist[i]`. This sharing ends when `append` moves `v.UList` to a new
  array; the model keeps the old array in `LoadState.detached` from then on.
* The result of `utility.GetAWSInstancesByTag` (a query to AWS) is an input of the model.
* The collection loop of asyncHTTPPost is run on the sequence of cases that its `select`
  takes: an outcome is received, or the 500 ms timer fires. A goroutine counts its
  outcome after its send has been received; the model counts it at the receive.
* The mutex `Mu`, the configuration `Config` and the zerolog output are not modelled.
-/

namespace vmupstreams

/-- VMUpstream: upstream for a prometheus compatible instance. -/
structure VMUpstream where
  Host : String
  Status : Bool
  Port : Int
  URI : String
deriving DecidableEq, Repr

/-- VInstance of package utility: one instance returned by the directory query. -/
structure VInstance where
  AWSHost : String
  AWSURI : String
  AWSPort : Int
  AWSInstanceID : String
  AWSName : String
deriving DecidableEq, Repr

/-- VMUpstreams: `UList` holds the elements of the slice, `spare` the cells of its backing
array between `len` and `cap` (their contents are whatever was left there). -/
structure VMUpstreams where
  UList : List VMUpstream
  spare : List VMUpstream
deriving DecidableEq, Repr

/-- The zero value of `VMUpstream`, the content of freshly allocated cells. -/
def zeroUpstream : VMUpstream := ⟨"", false, 0, ""⟩

/-- CEqual, line by line: the third test compares `v.URI` with `v.URI`. -/
def VMUpstream.CEqual (v c : VMUpstream) : Bool :=
  if v.Host ≠ c.Host then false
  else if v.Port ≠ c.Port then false
  else if v.URI ≠ v.URI then false
  else true

/-- UpstreamList returns the slice header `v.UList` itself (same backing array) and a
nil error. As a value it is the current element list. -/
def UpstreamList (v : VMUpstreams) : List VMUpstream × Option String :=
  (v.UList, none)

/-- Go `append(v.UList, x)`: in place when `len < cap`, otherwise into a new array with
`slack (cap)` cells of room beyond the new element. -/
def goAppend (slack : Nat → Nat) (v : VMUpstreams) (x : VMUpstream) : VMUpstreams :=
  match v.spare with
  | _ :: rest => ⟨v.UList ++ [x], rest⟩
  | [] => ⟨v.UList ++ [x], List.replicate (slack v.UList.length) zeroUpstream⟩

/-- AddUpstream adds an upstream to the list. -/
def AddUpstream (slack : Nat → Nat) (v : VMUpstreams) (upstream : VMUpstream) :
    VMUpstreams × Option String :=
  (goAppend slack v upstream, none)

/-- Body of the loop of UpdateUpstreamByHost at index `i`: the element is read from the
current array and, on a host match, its cell is overwritten. -/
def updateAt (upstream : VMUpstream) (l : List VMUpstream) (i : Nat) : List VMUpstream :=
  match l[i]? with
  | none => l
  | some ulist =>
    if ulist.Host = upstream.Host then
      l.set i { ulist with Port := upstream.Port, Status := upstream.Status, URI := upstream.URI }
    else l

/-- UpdateUpstreamByHost: `for i, ulist := range v.UList`. -/
def UpdateUpstreamByHost (v : VMUpstreams) (upstream : VMUpstream) :
    VMUpstreams × Option String :=
  ({ v with UList := (List.range v.UList.length).foldl (updateAt upstream) v.UList }, none)

/-- The "Find Index" loop of DeleteUpstreamByHost: `i` is the loop counter, `idx` the
variable that starts at `-1`; the loop has no `break`, so the last match wins. -/
def findIdx (host : String) : List VMUpstream → Nat → Int → Int
  | [], _, idx => idx
  | ulist :: rest, i, idx => findIdx host rest (i + 1) (if ulist.Host = host then (i : Int) else idx)

/-- DeleteUpstreamByHost: find the index, copy the last element over it, reslice to
`len-1`. `v.UList[idx]` with `idx = -1` is an index out of range: the result is `none`.
The cell that falls out of the slice stays in the backing array. -/
def DeleteUpstreamByHost (v : VMUpstreams) (host : String) :
    Option (VMUpstreams × Option String) :=
  let idx := findIdx host v.UList 0 (-1)
  if idx < 0 then none
  else
    match v.UList[v.UList.length - 1]? with
    | none => none
    | some last =>
      let arr := v.UList.set idx.toNat last
      some (⟨arr.take (v.UList.length - 1), arr.drop (v.UList.length - 1) ++ v.spare⟩, none)

/-- The URL built by `fmt.Sprintf("http://%s:%d%s", Host, Port, URI)`. -/
def hostURL (upstream : VMUpstream) : String :=
  "http://" ++ upstream.Host ++ ":" ++ toString upstream.Port ++ upstream.URI

/-- GetActiveHostList: the loop appends one URL per entry whose Status is true. The
method only reads `v`; the result is the registry after the call, `retList` and the error. -/
def GetActiveHostList (v : VMUpstreams) : VMUpstreams × List String × Option String :=
  (v, v.UList.foldl
    (fun retList upstream => if upstream.Status = true then retList ++ [hostURL upstream] else retList)
    [], none)

/-- The upstream `n` (and `p`) that LoadUpstreams builds from a directory instance. -/
def toUpstream (inst : VInstance) : VMUpstream :=
  { Host := inst.AWSHost, Port := inst.AWSPort, URI := inst.AWSURI, Status := true }

/-- A mutating call made by LoadUpstreams, in the order the calls are made. -/
inductive Call where
  | add (upstream : VMUpstream)
  | delete (host : String)
deriving DecidableEq, Repr

/-- State of one run of LoadUpstreams. The local slice `uslist` has the same backing
array as `v.UList` until an `append` in AddUpstream moves `v.UList` to a new array; from
then on `detached` holds the old array, which nobody writes any more. -/
structure LoadState where
  v : VMUpstreams
  detached : Option (List VMUpstream)
  calls : List Call
deriving DecidableEq, Repr

/-- The element `uslist[i]` as the loops of LoadUpstreams read it at this moment. -/
def uslistGet (s : LoadState) (i : Nat) : Option VMUpstream :=
  match s.detached with
  | some cells => cells[i]?
  | none => (s.v.UList ++ s.v.spare)[i]?

/-- The `n0` elements of `uslist` at this moment. -/
def uslistView (s : LoadState) (n0 : Nat) : List VMUpstream :=
  match s.detached with
  | some cells => cells.take n0
  | none => (s.v.UList ++ s.v.spare).take n0

/-- Body of the first loop of LoadUpstreams for one instance: look for a CEqual entry of
`uslist`, add the upstream when there is none. -/
def addStep (slack : Nat → Nat) (n0 : Nat) (s : LoadState) (inst : VInstance) : LoadState :=
  let n := toUpstream inst
  let f := (uslistView s n0).foldl (fun f h => if h.CEqual n then true else f) false
  if f = false then
    { v := (AddUpstream slack s.v n).1
      -- with `len = cap` the append allocates: `uslist` keeps the old array, whose cells
      -- are the elements of `v.UList` before the call
      detached :=
        match s.detached with
        | some cells => some cells
        | none => if s.v.spare = [] then some s.v.UList else none
      calls := s.calls ++ [Call.add n] }
  else s

/-- Body of the second loop of LoadUpstreams at index `i` of `uslist`. -/
def deleteStep (instances : List VInstance) (s : LoadState) (i : Nat) : Option LoadState :=
  match uslistGet s i with
  | none => none
  | some x =>
    let f := instances.foldl (fun f inst => if x.CEqual (toUpstream inst) then true else f) false
    if f = false then
      match DeleteUpstreamByHost s.v x.Host with
      | none => none
      | some (v1, _) => some { s with v := v1, calls := s.calls ++ [Call.delete x.Host] }
    else some s

/-- The second loop of LoadUpstreams: `k` iterations are left, the next index is `i`. -/
def deleteLoop (instances : List VInstance) : Nat → Nat → LoadState → Option LoadState
  | 0, _, s => some s
  | k + 1, i, s =>
    match deleteStep instances s i with
    | none => none
    | some s1 => deleteLoop instances k (i + 1) s1

/-- What one call of LoadUpstreams leaves behind: the registry, the returned error, the
mutating calls it made and the value it wrote to the gauge `current_upstreams` (if any). -/
structure LoadResult where
  v : VMUpstreams
  err : Option String
  calls : List Call
  currentUpstreams : Option Nat
deriving DecidableEq, Repr

/-- LoadUpstreams. `directory` is the result of `utility.GetAWSInstancesByTag`. -/
def LoadUpstreams (slack : Nat → Nat) (directory : Except String (List VInstance))
    (v : VMUpstreams) : Option LoadResult :=
  match directory with
  | Except.error e => some ⟨v, some e, [], none⟩
  | Except.ok instances =>
    let n0 := (UpstreamList v).1.length
    let s1 := instances.foldl (addStep slack n0) ⟨v, none, []⟩
    match deleteLoop instances n0 0 s1 with
    | none => none
    | some s2 =>
      let (v2, activeHostList, _) := GetActiveHostList s2.v
      some ⟨v2, none, s2.calls, some activeHostList.length⟩

/-- What UpdateUpstreamByHost makes of one entry `e`: Port, Status and URI are taken from
`upstream` when the hosts are equal; used to state its effect. -/
def overwrite (upstream e : VMUpstream) : VMUpstream :=
  if e.Host = upstream.Host then
    { Host := e.Host, Port := upstream.Port, Status := upstream.Status, URI := upstream.URI }
  else e

/-- The flag `f` of the second loop of LoadUpstreams is still false after the inner loop:
`x` is CEqual to no instance of the directory. -/
def noMatch (instances : List VInstance) (x : VMUpstream) : Bool :=
  !instances.any (fun inst => x.CEqual (toUpstream inst))

/-- VMUpstreamsInitialize stores the configuration and runs LoadUpstreams once; the
result is that of LoadUpstreams. -/
def VMUpstreamsInitialize (slack : Nat → Nat) (directory : Except String (List VInstance))
    (v : VMUpstreams) : Option LoadResult :=
  LoadUpstreams slack directory v

end vmupstreams

namespace vmhandlers

/-- HTTPResponse: `response` holds the status code of the `*http.Response`, `none` for a
nil pointer. -/
structure HTTPResponse where
  url : String
  response : Option Int
  err : Option String
deriving DecidableEq, Repr

/-- HTTPForward: forwarding http type. -/
structure HTTPForward where
  URL : String
  ReqBody : List Nat
deriving DecidableEq, Repr

/-- The prometheus counters of the package. -/
structure Metrics where
  eventsTotalProcessed : Nat
  eventsFailedProcessed : Nat
  eventsSucceedProcessed : Nat
  eventsFailedTimeouts : Nat
deriving DecidableEq, Repr

/-- Which case of the `select` in the collection loop fires: an outcome `r` arrives on
`ch`, or `time.After(500 * time.Millisecond)` fires first. -/
inductive SelectCase where
  | receive (r : HTTPResponse)
  | timeout
deriving DecidableEq, Repr

/-- What the sending goroutine does once its send `ch <- ...` has been received: it
counts the outcome as failed or succeeded. -/
def afterSend (r : HTTPResponse) (m : Metrics) : Metrics :=
  match r.err with
  | some _ => { m with eventsFailedProcessed := m.eventsFailedProcessed + 1 }
  | none =>
    match r.response with
    | some code =>
      if code = 204 then { m with eventsSucceedProcessed := m.eventsSucceedProcessed + 1 }
      else { m with eventsFailedProcessed := m.eventsFailedProcessed + 1 }
    | none => m

/-- Where the collection loop stands after a sequence of select cases: it has returned
`responses`, or it is still blocked in the `select`. -/
inductive Collect where
  | returned (responses : List HTTPResponse) (m : Metrics)
  | waiting (responses : List HTTPResponse) (m : Metrics)
deriving DecidableEq, Repr

/-- The `for { select { ... } }` loop of asyncHTTPPost, run on a sequence of select cases. -/
def collect (forwards : List HTTPForward) :
    List SelectCase → List HTTPResponse → Metrics → Collect
  | [], responses, m => Collect.waiting responses m
  | SelectCase.receive r :: rest, responses, m =>
    if (responses ++ [r]).length = forwards.length then
      Collect.returned (responses ++ [r]) (afterSend r m)
    else collect forwards rest (responses ++ [r]) (afterSend r m)
  | SelectCase.timeout :: rest, responses, m =>
    collect forwards rest responses { m with eventsFailedTimeouts := m.eventsFailedTimeouts + 1 }

/-- asyncHTTPPost: count the event, start the goroutines, run the collection loop. -/
def asyncHTTPPost (forwards : List HTTPForward) (cases : List SelectCase) (m : Metrics) :
    Collect :=
  collect forwards cases [] { m with eventsTotalProcessed := m.eventsTotalProcessed + 1 }

/-- Number of outcomes that arrive in a sequence of select cases. -/
def receives : List SelectCase → Nat
  | [] => 0
  | SelectCase.receive _ :: rest => receives rest + 1
  | SelectCase.timeout :: rest => receives rest

/-- Number of expired 500 ms windows in a sequence of select cases. -/
def expiries : List SelectCase → Nat
  | [] => 0
  | SelectCase.receive _ :: rest => expiries rest
  | SelectCase.timeout :: rest => expiries rest + 1

/-- The outcomes that arrive in a sequence of select cases, in arrival order. -/
def received : List SelectCase → List HTTPResponse
  | [] => []
  | SelectCase.receive r :: rest => r :: received rest
  | SelectCase.timeout :: rest => received rest

/-- The outcome that the goroutine started for `forward` sends on `ch`,
`&HTTPResponse{forward.URL, resp, err}`, where `result` is the pair `(resp, err)` that
`client.Do` returned. -/
def sentOutcome (forward : HTTPForward) (result : Option Int × Option String) : HTTPResponse :=
  ⟨forward.URL, result.1, result.2⟩

/-- An outcome without transport error whose status code is 204. -/
def isSucceeded (r : HTTPResponse) : Bool :=
  decide (r.err = none ∧ r.response = some 204)

/-- An outcome with a transport error, or without one and with a status code other
than 204. -/
def isFailed (r : HTTPResponse) : Bool :=
  decide (r.err ≠ none ∨ (r.response ≠ none ∧ r.response ≠ some 204))

/-- What PromHandler has done after a sequence of select cases of its asyncHTTPPost call:
the status it wrote with `w.WriteHeader` (`none` while it is still inside asyncHTTPPost),
the forwards it built and the counters. -/
structure HandlerResult where
  status : Option Int
  httpforwards : List HTTPForward
  m : Metrics
deriving DecidableEq, Repr

/-- PromHandler. `body` is the result of `ioutil.ReadAll(r.Body)`; 417 is
`http.StatusExpectationFailed`, 200 is `http.StatusOK`. The status is written after
asyncHTTPPost has returned. -/
def PromHandler (v : vmupstreams.VMUpstreams) (body : Except String (List Nat))
    (cases : List SelectCase) (m : Metrics) : HandlerResult :=
  match body with
  | Except.error _ =>
    ⟨some 417, [], { m with eventsFailedProcessed := m.eventsFailedProcessed + 1 }⟩
  | Except.ok reqBody =>
    let hostList := (vmupstreams.GetActiveHostList v).2.1
    let httpforwards := hostList.foldl
      (fun fs host => fs ++ [({ URL := host, ReqBody := reqBody } : HTTPForward)]) []
    match asyncHTTPPost httpforwards cases m with
    | Collect.returned _ m1 => ⟨some 200, httpforwards, m1⟩
    | Collect.waiting _ m1 => ⟨none, httpforwards, m1⟩

end vmhandlers

/-! ## Theorems -/

namespace vmupstreams


/-! ### CEqual -/

theorem CEqual_eq_true_iff (v c : VMUpstream) :
    v.CEqual c = true ↔ v.Host = c.Host ∧ v.Port = c.Port := by
  unfold VMUpstream.CEqual
  by_cases h1 : v.Host = c.Host <;> by_cases h2 : v.Port = c.Port <;> simp [h1, h2]

/-! ### The find loop of DeleteUpstreamByHost -/

theorem findIdx_spec (host : String) (l : List VMUpstream) (i : Nat) (idx : Int) :
    (findIdx host l i idx = idx ∧ ∀ u ∈ l, u.Host ≠ host) ∨
    (∃ j, j < l.length ∧ findIdx host l i idx = ((i + j : Nat) : Int) ∧
      (∃ u, l[j]? = some u ∧ u.Host = host) ∧
      ∀ k u, j < k → l[k]? = some u → u.Host ≠ host) := by
  induction l generalizing i idx with
  | nil => left; simp [findIdx]
  | cons a t ih =>
    rcases ih (i + 1) (if a.Host = host then (i : Int) else idx) with ⟨h1, h2⟩ | ⟨j, hj, h1, h2, h3⟩
    · by_cases ha : a.Host = host
      · right
        refine ⟨0, by simp, ?_, ⟨a, by simp, ha⟩, ?_⟩
        · show findIdx host t (i + 1) (if a.Host = host then (i : Int) else idx) = _
          rw [h1]; simp [ha]
        · intro k u hk hu
          obtain ⟨k1, rfl⟩ : ∃ k1, k = k1 + 1 := ⟨k - 1, by omega⟩
          simp at hu
          exact h2 u (List.getElem?_mem hu)
      · left
        refine ⟨?_, ?_⟩
        · show findIdx host t (i + 1) (if a.Host = host then (i : Int) else idx) = _
          rw [h1]; simp [ha]
        · intro u hu
          rcases List.mem_cons.1 hu with rfl | hu
          · exact ha
          · exact h2 u hu
    · right
      refine ⟨j + 1, by simp; omega, ?_, ?_, ?_⟩
      · show findIdx host t (i + 1) (if a.Host = host then (i : Int) else idx) = _
        rw [h1]; push_cast; omega
      · simpa using h2
      · intro k u hk hu
        obtain ⟨k1, rfl⟩ : ∃ k1, k = k1 + 1 := ⟨k - 1, by omega⟩
        simp at hu
        exact h3 k1 u (by omega) hu

/-! ### DeleteUpstreamByHost -/

theorem Delete_absent (v : VMUpstreams) (host : String)
    (h : ∀ u ∈ v.UList, u.Host ≠ host) : DeleteUpstreamByHost v host = none := by
  rcases findIdx_spec host v.UList 0 (-1) with ⟨h1, _⟩ | ⟨j, _, _, ⟨u, hu, hh⟩, _⟩
  · simp [DeleteUpstreamByHost, h1]
  · exact absurd hh (h u (List.getElem?_mem hu))

theorem Delete_present (v : VMUpstreams) (host : String)
    (h : ∃ u ∈ v.UList, u.Host = host) :
    ∃ j last, j < v.UList.length ∧ (∃ u, v.UList[j]? = some u ∧ u.Host = host) ∧
      (∀ k u, j < k → v.UList[k]? = some u → u.Host ≠ host) ∧
      v.UList[v.UList.length - 1]? = some last ∧
      DeleteUpstreamByHost v host =
        some (⟨(v.UList.set j last).take (v.UList.length - 1),
               (v.UList.set j last).drop (v.UList.length - 1) ++ v.spare⟩, none) := by
  rcases findIdx_spec host v.UList 0 (-1) with ⟨_, h2⟩ | ⟨j, hj, h1, h2, h3⟩
  · obtain ⟨u, hu, hh⟩ := h
    exact absurd hh (h2 u hu)
  · have hlast : v.UList.length - 1 < v.UList.length := by omega
    refine ⟨j, v.UList[v.UList.length - 1], hj, h2, h3, ?_, ?_⟩
    · exact List.getElem?_eq_getElem hlast
    · simp only [DeleteUpstreamByHost, h1, List.getElem?_eq_getElem hlast]
      have : ¬ (((0 + j : Nat) : Int) < 0) := by omega
      simp [this]

/-- Copying the last element over index `j` and dropping the last cell removes exactly
the element at index `j`, up to order. -/
theorem swapRemove_perm (l : List VMUpstream) (j : Nat) (last : VMUpstream)
    (hj : j < l.length) (hlast : l[l.length - 1]? = some last) :
    ((l.set j last).take (l.length - 1)).Perm (l.eraseIdx j) := by
  induction l generalizing j with
  | nil => simp at hj
  | cons a t ih =>
    cases j with
    | zero =>
      cases t with
      | nil => simp
      | cons b t2 =>
        simp only [List.set_cons_zero, List.length_cons, Nat.add_sub_cancel, List.take_succ_cons,
          List.eraseIdx_cons_zero]
        simp only [List.length_cons, Nat.add_sub_cancel] at hlast
        have h1 : (b :: t2)[t2.length]? = some last := by simpa using hlast
        have h2 : (b :: t2).take t2.length ++ [last] = b :: t2 := by
          have := List.take_append_drop t2.length (b :: t2)
          have hd : (b :: t2).drop t2.length = [last] := by
            rw [List.drop_eq_getElem_cons (by simp)]
            simp at h1 ⊢
            exact h1
          rw [hd] at this; exact this
        have h3 := (List.perm_append_singleton last ((b :: t2).take t2.length)).symm
        rw [h2] at h3
        exact h3
    | succ k =>
      have hk : k < t.length := by simpa using hj
      cases t with
      | nil => simp at hk
      | cons b t2 =>
        have h1 : (b :: t2)[(b :: t2).length - 1]? = some last := by simpa using hlast
        have := ih k hk h1
        simp only [List.set_cons_succ, List.length_cons, Nat.add_sub_cancel, List.take_succ_cons,
          List.eraseIdx_cons_succ]
        simp only [List.length_cons, Nat.add_sub_cancel] at this
        exact List.Perm.cons a this

/-- In the backing array the delete changes one cell only: the one at index `j`. -/
theorem swapRemove_cells (l spare : List VMUpstream) (j : Nat) (last : VMUpstream)
    (hj : j < l.length) :
    (l.set j last).take (l.length - 1) ++ ((l.set j last).drop (l.length - 1) ++ spare)
      = (l ++ spare).set j last := by
  rw [← List.append_assoc, List.take_append_drop, List.set_append]
  simp [hj]

theorem eraseIdx_eq_filter_of_nodup (l : List VMUpstream) (j : Nat) (u : VMUpstream)
    (hnd : (l.map VMUpstream.Host).Nodup) (hu : l[j]? = some u) :
    l.eraseIdx j = l.filter (fun e => decide (e.Host ≠ u.Host)) := by
  induction l generalizing j with
  | nil => simp at hu
  | cons a t ih =>
    have hnd2 : a.Host ∉ t.map VMUpstream.Host ∧ (t.map VMUpstream.Host).Nodup :=
      List.nodup_cons.1 hnd
    cases j with
    | zero =>
      have hau : a = u := by simpa using hu
      subst hau
      have hall : ∀ e ∈ t, decide (e.Host ≠ a.Host) = true := by
        intro e he
        have : e.Host ≠ a.Host := fun h => hnd2.1 (h ▸ List.mem_map_of_mem VMUpstream.Host he)
        simpa using this
      show t = (a :: t).filter (fun e => decide (e.Host ≠ a.Host))
      rw [List.filter_cons_of_neg (by simp), List.filter_eq_self.2 hall]
    | succ k =>
      have hu2 : t[k]? = some u := by simpa using hu
      have hne : a.Host ≠ u.Host := fun h =>
        hnd2.1 (h ▸ List.mem_map_of_mem VMUpstream.Host (List.getElem?_mem hu2))
      show a :: t.eraseIdx k = (a :: t).filter (fun e => decide (e.Host ≠ u.Host))
      rw [List.filter_cons_of_pos (by simpa using hne), ih k hnd2.2 hu2]

/-! ### UpdateUpstreamByHost -/

theorem updateAt_getElem? (upstream : VMUpstream) (l : List VMUpstream) (i k : Nat) :
    (updateAt upstream l i)[k]? = if k = i then (l[k]?).map (overwrite upstream) else l[k]? := by
  unfold updateAt
  by_cases hki : k = i
  · subst hki
    cases h : l[k]? with
    | none => simp [h]
    | some e =>
      have hk : k < l.length := (List.getElem?_eq_some.1 h).1
      by_cases he : e.Host = upstream.Host
      · simp [he, overwrite, List.getElem?_set, hk]
      · simp [he, overwrite, h]
  · cases h : l[i]? with
    | none => simp [hki]
    | some e =>
      by_cases he : e.Host = upstream.Host
      · simp [he, hki, List.getElem?_set, Ne.symm hki]
      · simp [he, hki]

theorem updateLoop_getElem? (upstream : VMUpstream) (l : List VMUpstream) (n k : Nat) :
    ((List.range n).foldl (updateAt upstream) l)[k]?
      = if k < n then (l[k]?).map (overwrite upstream) else l[k]? := by
  induction n with
  | zero => simp
  | succ n ih =>
    rw [List.range_succ, List.foldl_append]
    simp only [List.foldl_cons, List.foldl_nil]
    rw [updateAt_getElem?, ih]
    by_cases h1 : k = n
    · subst h1; simp
    · by_cases h2 : k < n
      · simp [h1, h2, Nat.lt_succ_of_lt h2]
      · have : ¬ k < n + 1 := by omega
        simp [h1, h2, this]

theorem updateLoop_eq_map (upstream : VMUpstream) (l : List VMUpstream) :
    (List.range l.length).foldl (updateAt upstream) l = l.map (overwrite upstream) := by
  apply List.ext_getElem?
  intro k
  rw [updateLoop_getElem?]
  by_cases hk : k < l.length
  · simp [hk]
  · simp [hk, List.getElem?_eq_none (Nat.le_of_not_lt hk)]

/-! ### GetActiveHostList -/

theorem activeLoop_eq (l : List VMUpstream) (acc : List String) :
    l.foldl (fun retList upstream =>
        if upstream.Status = true then retList ++ [hostURL upstream] else retList) acc
      = acc ++ (l.filter (fun u => u.Status)).map hostURL := by
  induction l generalizing acc with
  | nil => simp
  | cons a t ih =>
    by_cases ha : a.Status = true
    · simp [List.foldl_cons, ha, ih, List.filter_cons]
    · simp [List.foldl_cons, ha, ih, List.filter_cons]

/-! ### LoadUpstreams: the two search loops -/

theorem foundLoop_eq_any (l : List VMUpstream) (n : VMUpstream) (init : Bool) :
    l.foldl (fun f h => if h.CEqual n then true else f) init
      = (init || l.any (fun h => h.CEqual n)) := by
  induction l generalizing init with
  | nil => simp
  | cons a t ih =>
    simp only [List.foldl_cons, ih, List.any_cons]
    cases init <;> cases a.CEqual n <;> simp

theorem matchLoop_eq_any (instances : List VInstance) (x : VMUpstream) (init : Bool) :
    instances.foldl (fun f inst => if x.CEqual (toUpstream inst) then true else f) init
      = (init || instances.any (fun inst => x.CEqual (toUpstream inst))) := by
  induction instances generalizing init with
  | nil => simp
  | cons a t ih =>
    simp only [List.foldl_cons, ih, List.any_cons]
    cases init <;> cases x.CEqual (toUpstream a) <;> simp

/-! ### LoadUpstreams: the first loop -/

/-- One step of the first loop keeps `uslist` reading the original elements `R` and only
appends to the registry: the instance is appended exactly when no entry of `R` is CEqual
to it. -/
theorem addStep_spec (slack : Nat → Nat) (R A : List VMUpstream) (s : LoadState)
    (inst : VInstance) (hU : s.v.UList = R ++ A)
    (hd : ∀ cells, s.detached = some cells → cells.take R.length = R) :
    (addStep slack R.length s inst).v.UList
        = R ++ (A ++ if R.any (fun h => h.CEqual (toUpstream inst)) then []
                     else [toUpstream inst]) ∧
    (∀ cells, (addStep slack R.length s inst).detached = some cells →
        cells.take R.length = R) := by
  have hview : uslistView s R.length = R := by
    unfold uslistView
    cases hdet : s.detached with
    | some cells => exact hd cells hdet
    | none => simp [hU]
  unfold addStep
  simp only [hview, foundLoop_eq_any, Bool.false_or]
  cases hany : R.any (fun h => h.CEqual (toUpstream inst)) with
  | true => exact ⟨by simp [hU], hd⟩
  | false =>
    simp only [if_true, Bool.false_eq_true, if_false]
    constructor
    · simp only [AddUpstream, goAppend]
      cases s.v.spare <;> simp [hU]
    · intro cells hc
      cases hdet : s.detached with
      | some c0 =>
        rw [hdet] at hc
        simp only [Option.some.injEq] at hc
        exact hc ▸ hd c0 hdet
      | none =>
        rw [hdet] at hc
        by_cases hsp : s.v.spare = []
        · simp only [hsp, if_true, Option.some.injEq] at hc
          rw [← hc, hU]; simp
        · simp [hsp] at hc

theorem addLoop_spec (slack : Nat → Nat) (R : List VMUpstream) (instances : List VInstance)
    (A : List VMUpstream) (s : LoadState) (hU : s.v.UList = R ++ A)
    (hd : ∀ cells, s.detached = some cells → cells.take R.length = R) :
    (instances.foldl (addStep slack R.length) s).v.UList
        = R ++ (A ++ (instances.filter
            (fun inst => !R.any (fun h => h.CEqual (toUpstream inst)))).map toUpstream) ∧
    (∀ cells, (instances.foldl (addStep slack R.length) s).detached = some cells →
        cells.take R.length = R) := by
  induction instances generalizing A s with
  | nil => simpa using ⟨hU, hd⟩
  | cons inst rest ih =>
    obtain ⟨h1, h2⟩ := addStep_spec slack R A s inst hU hd
    obtain ⟨h3, h4⟩ := ih _ (addStep slack R.length s inst) h1 h2
    refine ⟨?_, h4⟩
    rw [List.foldl_cons, h3]
    cases hany : R.any (fun h => h.CEqual (toUpstream inst)) <;>
      simp [List.filter_cons, hany]

/-- Reading `uslist[j]` for `j < n0` in a state where the view of `uslist` is `R`. -/
theorem uslistGet_of_view (R A : List VMUpstream) (s : LoadState) (hU : s.v.UList = R ++ A)
    (hd : ∀ cells, s.detached = some cells → cells.take R.length = R) (j : Nat)
    (hj : j < R.length) : uslistGet s j = R[j]? := by
  unfold uslistGet
  cases hdet : s.detached with
  | some cells =>
    have := hd cells hdet
    conv => rhs; rw [← this]
    simp [List.getElem?_take, hj]
  | none =>
    simp only [hU, List.append_assoc]
    rw [List.getElem?_append_left hj]

/-! ### LoadUpstreams: the second loop -/

theorem index_unique_of_nodup_hosts (R : List VMUpstream)
    (hR : (R.map VMUpstream.Host).Nodup) (a b : Nat) (x y : VMUpstream)
    (hx : R[a]? = some x) (hy : R[b]? = some y) (hh : x.Host = y.Host) : a = b := by
  have ha : a < (R.map VMUpstream.Host).length := by
    simpa using (List.getElem?_eq_some.1 hx).1
  have hb : b < (R.map VMUpstream.Host).length := by
    simpa using (List.getElem?_eq_some.1 hy).1
  apply (@List.Nodup.getElem_inj_iff _ _ hR a ha b hb).1
  have h1 : (R.map VMUpstream.Host)[a]? = some x.Host := by simp [hx]
  have h2 : (R.map VMUpstream.Host)[b]? = some y.Host := by simp [hy]
  rw [List.getElem?_eq_getElem ha] at h1
  rw [List.getElem?_eq_getElem hb] at h2
  simp only [Option.some.injEq] at h1 h2
  rw [h1, h2, hh]

theorem map_host_eraseIdx (l : List VMUpstream) (j : Nat) :
    (l.eraseIdx j).map VMUpstream.Host = (l.map VMUpstream.Host).eraseIdx j := by
  induction l generalizing j with
  | nil => rfl
  | cons a t ih =>
    cases j with
    | zero => rfl
    | succ k => simp [ih]

theorem eraseIdx_perm_erase (l : List String) (j : Nat) (a : String) (h : l[j]? = some a) :
    (l.eraseIdx j).Perm (l.erase a) := by
  induction l generalizing j with
  | nil => simp at h
  | cons b t ih =>
    cases j with
    | zero =>
      have : b = a := by simpa using h
      subst this
      simp
    | succ k =>
      have hk : t[k]? = some a := by simpa using h
      by_cases hb : b = a
      · subst hb
        simp only [List.eraseIdx_cons_succ, List.erase_cons_head]
        exact ((ih k hk).cons b).trans (List.perm_cons_erase (List.getElem?_mem hk)).symm
      · simp only [List.eraseIdx_cons_succ]
        rw [List.erase_cons_tail (by simpa using hb)]
        exact (ih k hk).cons b

/-- The hosts left by a delete of a present host: one occurrence of it is gone. -/
theorem Delete_hosts_perm (v : VMUpstreams) (host : String) (j : Nat) (last u : VMUpstream)
    (hj : j < v.UList.length) (hu : v.UList[j]? = some u) (hh : u.Host = host)
    (hlast : v.UList[v.UList.length - 1]? = some last) :
    (((v.UList.set j last).take (v.UList.length - 1)).map VMUpstream.Host).Perm
      ((v.UList.map VMUpstream.Host).erase host) := by
  have p1 := (swapRemove_perm v.UList j last hj hlast).map VMUpstream.Host
  rw [map_host_eraseIdx] at p1
  exact p1.trans (eraseIdx_perm_erase _ j host (by simp [hu, hh]))

/-- One step of the second loop, on a registry whose original hosts `R` are pairwise
distinct: it does not panic, the entries of `uslist` not yet visited still read as in `R`,
and the hosts of the registry are those of the directory plus those of the entries of `R`
not yet visited that match no instance. -/
theorem deleteStep_spec (D : List VInstance) (R : List VMUpstream) (s : LoadState) (i : Nat)
    (hR : (R.map VMUpstream.Host).Nodup) (hi : i < R.length)
    (hget : ∀ j, i ≤ j → j < R.length → uslistGet s j = R[j]?)
    (hperm : (s.v.UList.map VMUpstream.Host).Perm
      (D.map VInstance.AWSHost ++ ((R.drop i).filter (noMatch D)).map VMUpstream.Host)) :
    ∃ s1, deleteStep D s i = some s1 ∧
      (∀ j, i + 1 ≤ j → j < R.length → uslistGet s1 j = R[j]?) ∧
      (s1.v.UList.map VMUpstream.Host).Perm
        (D.map VInstance.AWSHost ++
          ((R.drop (i + 1)).filter (noMatch D)).map VMUpstream.Host) := by
  have hx : R[i]? = some R[i] := List.getElem?_eq_getElem hi
  have hgi : uslistGet s i = some R[i] := by rw [hget i (le_refl _) hi, hx]
  have hdrop : R.drop i = R[i] :: R.drop (i + 1) := List.drop_eq_getElem_cons hi
  unfold deleteStep
  simp only [hgi, matchLoop_eq_any, Bool.false_or]
  cases hm : D.any (fun inst => R[i].CEqual (toUpstream inst)) with
  | true =>
    refine ⟨s, by simp, fun j hj1 hj2 => hget j (by omega) hj2, ?_⟩
    rw [hdrop, List.filter_cons_of_neg (by simp [noMatch, hm])] at hperm
    exact hperm
  | false =>
    rw [hdrop, List.filter_cons_of_pos (by simp [noMatch, hm])] at hperm
    have hmem : R[i].Host ∈ s.v.UList.map VMUpstream.Host := hperm.symm.subset (by simp)
    obtain ⟨u0, hu0, hh0⟩ := List.mem_map.1 hmem
    obtain ⟨j, last, hj, ⟨u, hu, hh⟩, _, hlast, hdel⟩ :=
      Delete_present s.v R[i].Host ⟨u0, hu0, hh0⟩
    refine ⟨_, by simp only [hdel, Bool.false_eq_true, if_false, if_true]; rfl, ?_, ?_⟩
    · intro j1 h1 h2
      have hold := hget j1 (by omega) h2
      unfold uslistGet at hold ⊢
      cases hdet : s.detached with
      | some cells => rw [hdet] at hold; exact hold
      | none =>
        rw [hdet] at hold
        simp only [swapRemove_cells _ _ _ _ hj]
        by_cases hjj : j = j1
        · exfalso
          subst hjj
          have hc : (s.v.UList ++ s.v.spare)[j]? = some u := by
            rw [List.getElem?_append_left hj]; exact hu
          simp only at hold
          rw [hc] at hold
          have := index_unique_of_nodup_hosts R hR j i u R[i] hold.symm hx hh
          omega
        · simp only at hold
          rw [List.getElem?_set_ne hjj]; exact hold
    · have p1 := Delete_hosts_perm s.v R[i].Host j last u hj hu hh hlast
      have p2 := hperm.erase R[i].Host
      have p3 : ((D.map VInstance.AWSHost ++
          (R[i].Host :: ((R.drop (i + 1)).filter (noMatch D)).map VMUpstream.Host)).erase
            R[i].Host).Perm
          (D.map VInstance.AWSHost ++
            ((R.drop (i + 1)).filter (noMatch D)).map VMUpstream.Host) := by
        have := (@List.perm_middle _ R[i].Host (D.map VInstance.AWSHost)
          (((R.drop (i + 1)).filter (noMatch D)).map VMUpstream.Host)).erase R[i].Host
        rwa [List.erase_cons_head] at this
      rw [List.map_cons] at p2
      exact p1.trans (p2.trans p3)

theorem deleteLoop_spec (D : List VInstance) (R : List VMUpstream)
    (hR : (R.map VMUpstream.Host).Nodup) (k i : Nat) (s : LoadState) (hk : i + k = R.length)
    (hget : ∀ j, i ≤ j → j < R.length → uslistGet s j = R[j]?)
    (hperm : (s.v.UList.map VMUpstream.Host).Perm
      (D.map VInstance.AWSHost ++ ((R.drop i).filter (noMatch D)).map VMUpstream.Host)) :
    ∃ s2, deleteLoop D k i s = some s2 ∧
      (s2.v.UList.map VMUpstream.Host).Perm (D.map VInstance.AWSHost) := by
  induction k generalizing i s with
  | zero =>
    refine ⟨s, rfl, ?_⟩
    have : R.drop i = [] := List.drop_eq_nil_of_le (by omega)
    simpa [this] using hperm
  | succ k ih =>
    obtain ⟨s1, h1, h2, h3⟩ := deleteStep_spec D R s i hR (by omega) hget hperm
    obtain ⟨s2, h4, h5⟩ := ih (i + 1) s1 (by omega) h2 h3
    exact ⟨s2, by simp only [deleteLoop, h1, h4], h5⟩

/-! ### LoadUpstreams: hosts after the first loop -/

theorem matched_hosts_perm (D : List VInstance) (R : List VMUpstream)
    (hD : (D.map VInstance.AWSHost).Nodup) (hR : (R.map VMUpstream.Host).Nodup) :
    ((R.filter (fun x => D.any (fun inst => x.CEqual (toUpstream inst)))).map
        VMUpstream.Host).Perm
      ((D.filter (fun inst => R.any (fun h => h.CEqual (toUpstream inst)))).map
        VInstance.AWSHost) := by
  apply (List.perm_ext_iff_of_nodup ?_ ?_).2
  · intro h
    simp only [List.mem_map, List.mem_filter, List.any_eq_true, CEqual_eq_true_iff, toUpstream]
    constructor
    · rintro ⟨x, ⟨hx, inst, hinst, h1, h2⟩, rfl⟩
      exact ⟨inst, ⟨hinst, x, hx, h1, h2⟩, h1.symm⟩
    · rintro ⟨inst, ⟨hinst, x, hx, h1, h2⟩, rfl⟩
      exact ⟨x, ⟨hx, inst, hinst, h1, h2⟩, h1⟩
  · exact ((List.filter_sublist R).map VMUpstream.Host).nodup hR
  · exact ((List.filter_sublist D).map VInstance.AWSHost).nodup hD

/-- After the first loop the hosts of the registry are those of the directory plus
those of the original entries that match no instance. -/
theorem hosts_after_addLoop (D : List VInstance) (R : List VMUpstream)
    (hD : (D.map VInstance.AWSHost).Nodup) (hR : (R.map VMUpstream.Host).Nodup) :
    ((R ++ ([] ++ (D.filter
        (fun inst => !R.any (fun h => h.CEqual (toUpstream inst)))).map toUpstream)).map
        VMUpstream.Host).Perm
      (D.map VInstance.AWSHost ++ ((R.drop 0).filter (noMatch D)).map VMUpstream.Host) := by
  have e1 : (R.map VMUpstream.Host).Perm
      ((R.filter (fun x => D.any (fun inst => x.CEqual (toUpstream inst)))).map VMUpstream.Host
        ++ (R.filter (noMatch D)).map VMUpstream.Host) := by
    have := ((List.filter_append_perm
      (fun x => D.any (fun inst => x.CEqual (toUpstream inst))) R).map VMUpstream.Host).symm
    rw [List.map_append] at this
    exact this
  have e2 := matched_hosts_perm D R hD hR
  have e3 : ((D.filter (fun inst => R.any (fun h => h.CEqual (toUpstream inst)))).map
        VInstance.AWSHost
      ++ (D.filter (fun inst => !R.any (fun h => h.CEqual (toUpstream inst)))).map
        VInstance.AWSHost).Perm (D.map VInstance.AWSHost) := by
    have := (List.filter_append_perm
      (fun inst => R.any (fun h => h.CEqual (toUpstream inst))) D).map VInstance.AWSHost
    rw [List.map_append] at this
    exact this
  have e4 : ((D.filter (fun inst => !R.any (fun h => h.CEqual (toUpstream inst)))).map
      toUpstream).map VMUpstream.Host
      = (D.filter (fun inst => !R.any (fun h => h.CEqual (toUpstream inst)))).map
        VInstance.AWSHost := by
    rw [List.map_map]; rfl
  rw [List.nil_append, List.map_append, e4, List.drop_zero]
  refine (e1.append_right _).trans ?_
  refine ((e2.append_right _).append_right _).trans ?_
  refine List.Perm.trans ?_ (e3.append_right _)
  rw [List.append_assoc, List.append_assoc]
  exact List.Perm.append_left _ List.perm_append_comm

/-- On a registry and a directory result with pairwise distinct hosts, one LoadUpstreams
returns without error and the hosts of the registry become a permutation of the hosts
of the directory result. -/
theorem LoadUpstreams_hosts_perm (slack : Nat → Nat) (D : List VInstance) (v : VMUpstreams)
    (hD : (D.map VInstance.AWSHost).Nodup) (hR : (v.UList.map VMUpstream.Host).Nodup) :
    ∃ res, LoadUpstreams slack (Except.ok D) v = some res ∧ res.err = none ∧
      (res.v.UList.map VMUpstream.Host).Perm (D.map VInstance.AWSHost) := by
  obtain ⟨h1, h2⟩ := addLoop_spec slack v.UList D [] ⟨v, none, []⟩ (by simp)
    (by intro cells hc; simp at hc)
  have hget : ∀ j, 0 ≤ j → j < v.UList.length →
      uslistGet (D.foldl (addStep slack v.UList.length) ⟨v, none, []⟩) j = v.UList[j]? :=
    fun j _ hj => uslistGet_of_view v.UList _ _ h1 h2 j hj
  have hperm := hosts_after_addLoop D v.UList hD hR
  rw [← h1] at hperm
  obtain ⟨s2, h3, h4⟩ := deleteLoop_spec D v.UList hR v.UList.length 0 _ (by simp) hget hperm
  refine ⟨⟨s2.v, none, s2.calls, some (GetActiveHostList s2.v).2.1.length⟩, ?_, rfl, h4⟩
  simp only [LoadUpstreams, UpstreamList, h3]
  rfl

/-! ### LoadUpstreams on particular registries -/

/-- On the zero-value registry LoadUpstreams adds every instance and deletes nothing. -/
theorem LoadUpstreams_zero_registry (slack : Nat → Nat) (D : List VInstance) :
    ∃ res, VMUpstreamsInitialize slack (Except.ok D) ⟨[], []⟩ = some res ∧ res.err = none ∧
      res.v.UList = D.map toUpstream := by
  obtain ⟨h1, _⟩ := addLoop_spec slack [] D [] ⟨⟨[], []⟩, none, []⟩ rfl
    (by intro cells hc; simp at hc)
  have hU : (D.foldl (addStep slack 0) ⟨⟨[], []⟩, none, []⟩).v.UList = D.map toUpstream := by
    simpa using h1
  exact ⟨⟨(D.foldl (addStep slack 0) ⟨⟨[], []⟩, none, []⟩).v, none,
    (D.foldl (addStep slack 0) ⟨⟨[], []⟩, none, []⟩).calls,
    some (GetActiveHostList (D.foldl (addStep slack 0) ⟨⟨[], []⟩, none, []⟩).v).2.1.length⟩,
    rfl, rfl, hU⟩

/-- A registry with two entries for one host, and an empty directory result: the second
loop reads a cell of `uslist` that an earlier delete left behind and deletes its host a
second time. -/
theorem reconcile_stale_read_panics (slack : Nat → Nat) (spare : List VMUpstream) :
    LoadUpstreams slack (Except.ok [])
      ⟨[⟨"h", true, 1, "/w"⟩, ⟨"h", true, 2, "/w"⟩, ⟨"b", true, 1, "/w"⟩], spare⟩ = none := by
  simp [LoadUpstreams, UpstreamList, deleteLoop, deleteStep, uslistGet, DeleteUpstreamByHost,
    findIdx]

/-! ## The claims -/

/-- C1: for a directory result `D` with pairwise distinct hosts and a registry whose
hosts are pairwise distinct, one LoadUpstreams returns without error (and without panic),
and afterwards a host is in the registry exactly when it is in `D` and no two registry
entries share a host. This holds for every capacity of the slice and every growth policy
of `append`. -/
theorem C1_convergence (slack : Nat → Nat) (D : List VInstance) (v : VMUpstreams)
    (hD : (D.map VInstance.AWSHost).Nodup) (hR : (v.UList.map VMUpstream.Host).Nodup) :
    ∃ res, LoadUpstreams slack (Except.ok D) v = some res ∧ res.err = none ∧
      (∀ h, h ∈ res.v.UList.map VMUpstream.Host ↔ h ∈ D.map VInstance.AWSHost) ∧
      (res.v.UList.map VMUpstream.Host).Nodup := by
  obtain ⟨res, h1, h2, h3⟩ := LoadUpstreams_hosts_perm slack D v hD hR
  exact ⟨res, h1, h2, fun h => h3.mem_iff, h3.nodup_iff.2 hD⟩

/-- C1 on the example of the specification: the registry holds A and B, the directory
returns B and C. -/
theorem C1_convergence_witness :
    (([⟨"B", "/write", 9000, "i-b", "b"⟩, ⟨"C", "/write", 9000, "i-c", "c"⟩] :
        List VInstance).map VInstance.AWSHost).Nodup ∧
    (([⟨"A", true, 9000, "/write"⟩, ⟨"B", true, 9000, "/write"⟩] :
        List VMUpstream).map VMUpstream.Host).Nodup ∧
    ∃ res, LoadUpstreams (fun n => n)
        (Except.ok [⟨"B", "/write", 9000, "i-b", "b"⟩, ⟨"C", "/write", 9000, "i-c", "c"⟩])
        ⟨[⟨"A", true, 9000, "/write"⟩, ⟨"B", true, 9000, "/write"⟩], []⟩ = some res ∧
      res.err = none ∧
      (∀ h, h ∈ res.v.UList.map VMUpstream.Host ↔
        h ∈ ([⟨"B", "/write", 9000, "i-b", "b"⟩, ⟨"C", "/write", 9000, "i-c", "c"⟩] :
          List VInstance).map VInstance.AWSHost) ∧
      (res.v.UList.map VMUpstream.Host).Nodup :=
  ⟨by decide, by decide,
   C1_convergence (fun n => n)
    [⟨"B", "/write", 9000, "i-b", "b"⟩, ⟨"C", "/write", 9000, "i-c", "c"⟩]
    ⟨[⟨"A", true, 9000, "/write"⟩, ⟨"B", true, 9000, "/write"⟩], []⟩ (by decide) (by decide)⟩


/-- C2: one LoadUpstreams does not bring the registry to the descriptors of the directory
when the uri or the port of a known host changed. With the registry holding
10.0.0.1:8428/api/v1/write: (a) the directory returns the same host and port with uri
/insert: CEqual finds the old entry, nothing is added or deleted, and the registry keeps
the old uri; (b) the directory returns the same host with port 8429: the new descriptor
is added, then DeleteUpstreamByHost removes the last entry with that host, which is the
descriptor just added, and the registry keeps the old port. In both cases no entry has
the port and uri of the discovered instance. -/
theorem C2_changed_descriptor_not_replaced (slack : Nat → Nat) :
    LoadUpstreams slack (Except.ok [⟨"10.0.0.1", "/insert", 8428, "i-1", "vm-1"⟩])
        ⟨[⟨"10.0.0.1", true, 8428, "/api/v1/write"⟩], []⟩
      = some ⟨⟨[⟨"10.0.0.1", true, 8428, "/api/v1/write"⟩], []⟩, none, [], some 1⟩ ∧
    LoadUpstreams slack (Except.ok [⟨"10.0.0.1", "/api/v1/write", 8429, "i-1", "vm-1"⟩])
        ⟨[⟨"10.0.0.1", true, 8428, "/api/v1/write"⟩], []⟩
      = some ⟨⟨[⟨"10.0.0.1", true, 8428, "/api/v1/write"⟩],
               ⟨"10.0.0.1", true, 8429, "/api/v1/write"⟩ ::
                 List.replicate (slack 1) zeroUpstream⟩,
              none,
              [Call.add ⟨"10.0.0.1", true, 8429, "/api/v1/write"⟩, Call.delete "10.0.0.1"],
              some 1⟩ :=
  ⟨rfl, rfl⟩

/-- C3: deleting a host that no entry of the registry has does not return: the find loop
leaves `idx = -1` and `v.UList[idx]` is an index out of range, for the empty registry as
for any other. The no-op that the claim describes is not what the code does. -/
theorem C3_delete_absent_host_panics (v : VMUpstreams) (host : String)
    (h : ∀ u ∈ v.UList, u.Host ≠ host) : DeleteUpstreamByHost v host = none :=
  Delete_absent v host h

/-- C3 at concrete inputs: the empty registry, and a registry with one other host. -/
theorem C3_delete_absent_host_panics_witness :
    (∀ u ∈ ([] : List VMUpstream), u.Host ≠ "10.0.0.1") ∧
    DeleteUpstreamByHost ⟨[], []⟩ "10.0.0.1" = none ∧
    (∀ u ∈ [(⟨"10.0.0.2", true, 8428, "/api/v1/write"⟩ : VMUpstream)], u.Host ≠ "10.0.0.1") ∧
    DeleteUpstreamByHost ⟨[⟨"10.0.0.2", true, 8428, "/api/v1/write"⟩], []⟩ "10.0.0.1" = none :=
  ⟨by simp,
   C3_delete_absent_host_panics ⟨[], []⟩ "10.0.0.1" (by simp),
   by simp,
   C3_delete_absent_host_panics ⟨[⟨"10.0.0.2", true, 8428, "/api/v1/write"⟩], []⟩ "10.0.0.1"
     (by simp)⟩

/-- C4: CEqual does not compare the URIs of its operands: two upstreams with the same
host and port and different URIs are CEqual, so the "if and only if" of the claim fails
from left to right. (CEqual is true exactly when host and port agree.) -/
theorem C4_CEqual_ignores_URI :
    (⟨"10.0.0.1", true, 8428, "/api/v1/write"⟩ : VMUpstream).CEqual
        ⟨"10.0.0.1", true, 8428, "/insert"⟩ = true ∧
    ("/api/v1/write" : String) ≠ "/insert" ∧
    ∀ v c : VMUpstream, v.CEqual c = true ↔ v.Host = c.Host ∧ v.Port = c.Port :=
  ⟨by decide, by decide, CEqual_eq_true_iff⟩

/-- C5: the second of two LoadUpstreams runs with the same directory result is not free
of mutating calls. The registry holds 10.0.0.1:8428 and the directory returns 10.0.0.1
with port 8429: the first run adds the new descriptor and deletes it again (the delete by
host removes the last entry with that host), leaving the old entry; the second run, on
the registry the first one left, calls AddUpstream and DeleteUpstreamByHost again. -/
theorem C5_second_run_mutates (slack : Nat → Nat) :
    ∃ r1 r2,
      LoadUpstreams slack (Except.ok [⟨"10.0.0.1", "/api/v1/write", 8429, "i-1", "vm-1"⟩])
        ⟨[⟨"10.0.0.1", true, 8428, "/api/v1/write"⟩], []⟩ = some r1 ∧
      LoadUpstreams slack (Except.ok [⟨"10.0.0.1", "/api/v1/write", 8429, "i-1", "vm-1"⟩])
        r1.v = some r2 ∧
      r1.v.UList = [⟨"10.0.0.1", true, 8428, "/api/v1/write"⟩] ∧
      r2.calls =
        [Call.add ⟨"10.0.0.1", true, 8429, "/api/v1/write"⟩, Call.delete "10.0.0.1"] :=
  ⟨_, _, rfl, rfl, rfl, rfl⟩

/-- C6: GetActiveHostList returns, in registry order, one URL per entry whose Status is
true and none for the others; the URL is "http://", the Host, ":", the Port in decimal and
the URI; the registry is returned as it was and the error is nil. -/
theorem C6_GetActiveHostList_spec (v : VMUpstreams) :
    GetActiveHostList v =
      (v, (v.UList.filter (fun u => u.Status)).map
            (fun u => "http://" ++ u.Host ++ ":" ++ toString u.Port ++ u.URI), none) := by
  simp only [GetActiveHostList, activeLoop_eq, List.nil_append]
  rfl

/-- C7: on a registry whose hosts are pairwise distinct, deleting a host that is present
returns without error; the new list is one shorter, has no entry with that host, and is a
permutation of the other original entries (each kept once, all fields unchanged). -/
theorem C7_delete_present_host (v : VMUpstreams) (host : String)
    (hnd : (v.UList.map VMUpstream.Host).Nodup) (hp : ∃ u ∈ v.UList, u.Host = host) :
    ∃ v1, DeleteUpstreamByHost v host = some (v1, none) ∧
      v1.UList.length + 1 = v.UList.length ∧
      (∀ u ∈ v1.UList, u.Host ≠ host) ∧
      v1.UList.Perm (v.UList.filter (fun e => decide (e.Host ≠ host))) := by
  obtain ⟨j, last, hj, ⟨u, hu, hh⟩, _, hlast, hdel⟩ := Delete_present v host hp
  have hperm := swapRemove_perm v.UList j last hj hlast
  rw [eraseIdx_eq_filter_of_nodup v.UList j u hnd hu, hh] at hperm
  refine ⟨_, hdel, ?_, ?_, hperm⟩
  · simp only [List.length_take, List.length_set]
    omega
  · intro e he
    have := (List.mem_filter.1 (hperm.subset he)).2
    simpa using this

/-- C7 at a concrete input: deleting the first of three hosts. -/
theorem C7_delete_present_host_witness :
    (([⟨"a", true, 1, "/w"⟩, ⟨"b", false, 2, "/w"⟩, ⟨"c", true, 3, "/w"⟩] :
        List VMUpstream).map VMUpstream.Host).Nodup ∧
    ∃ v1, DeleteUpstreamByHost
        ⟨[⟨"a", true, 1, "/w"⟩, ⟨"b", false, 2, "/w"⟩, ⟨"c", true, 3, "/w"⟩], []⟩ "a"
          = some (v1, none) ∧
      v1.UList.length + 1 = 3 ∧
      (∀ u ∈ v1.UList, u.Host ≠ "a") ∧
      v1.UList.Perm [⟨"b", false, 2, "/w"⟩, ⟨"c", true, 3, "/w"⟩] :=
  ⟨by decide,
   C7_delete_present_host
    ⟨[⟨"a", true, 1, "/w"⟩, ⟨"b", false, 2, "/w"⟩, ⟨"c", true, 3, "/w"⟩], []⟩ "a"
    (by decide) ⟨⟨"a", true, 1, "/w"⟩, by simp, rfl⟩⟩

/-- C8: UpdateUpstreamByHost returns no error and keeps length and order: the new list is
the old one with every entry whose Host equals `upstream.Host` given the Port, URI and
Status of `upstream` (its Host kept) and every other entry as it was; the spare cells are
untouched. When no entry has that host the registry is unchanged. -/
theorem C8_UpdateUpstreamByHost_spec (v : VMUpstreams) (upstream : VMUpstream) :
    UpdateUpstreamByHost v upstream =
      (⟨v.UList.map (fun e =>
          if e.Host = upstream.Host then
            { Host := e.Host, Port := upstream.Port, Status := upstream.Status,
              URI := upstream.URI }
          else e), v.spare⟩, none) ∧
    ((∀ e ∈ v.UList, e.Host ≠ upstream.Host) → UpdateUpstreamByHost v upstream = (v, none)) := by
  have h1 : UpdateUpstreamByHost v upstream
      = (⟨v.UList.map (overwrite upstream), v.spare⟩, none) := by
    simp only [UpdateUpstreamByHost, updateLoop_eq_map]
  refine ⟨h1, ?_⟩
  intro h
  rw [h1]
  have : v.UList.map (overwrite upstream) = v.UList := by
    conv => rhs; rw [← List.map_id v.UList]
    apply List.map_congr_left
    intro e he
    simp [overwrite, h e he]
  rw [this]

/-- C9: when the directory query fails with error `e`, LoadUpstreams returns `e`, makes no
mutating call, writes no gauge value and leaves the registry (elements and spare cells)
exactly as it was. -/
theorem C9_LoadUpstreams_directory_error (slack : Nat → Nat) (e : String) (v : VMUpstreams) :
    LoadUpstreams slack (Except.error e) v = some ⟨v, some e, [], none⟩ := rfl

/-- C12: on the zero-value registry (nil slice) VMUpstreamsInitialize with a directory
result `D` returns without error; the registry then holds one entry per instance of `D`,
in discovery order, each with Status true, and GetActiveHostList returns exactly
`len(D)` URLs, the URL of each instance built from its host, port and uri, in discovery
order; so the active host list is non-empty whenever `D` is. -/
theorem C12_bootstrap_from_empty (slack : Nat → Nat) (D : List VInstance) :
    ∃ res, VMUpstreamsInitialize slack (Except.ok D) ⟨[], []⟩ = some res ∧
      res.err = none ∧
      res.v.UList = D.map (fun inst => ⟨inst.AWSHost, true, inst.AWSPort, inst.AWSURI⟩) ∧
      GetActiveHostList res.v =
        (res.v, D.map (fun inst =>
            "http://" ++ inst.AWSHost ++ ":" ++ toString inst.AWSPort ++ inst.AWSURI), none) ∧
      (GetActiveHostList res.v).2.1.length = D.length ∧
      (D ≠ [] → (GetActiveHostList res.v).2.1 ≠ []) := by
  obtain ⟨h1, _⟩ := addLoop_spec slack [] D [] ⟨⟨[], []⟩, none, []⟩ rfl
    (by intro cells hc; simp at hc)
  have hU : (D.foldl (addStep slack 0) ⟨⟨[], []⟩, none, []⟩).v.UList = D.map toUpstream := by
    simpa using h1
  have hact : GetActiveHostList (D.foldl (addStep slack 0) ⟨⟨[], []⟩, none, []⟩).v =
      ((D.foldl (addStep slack 0) ⟨⟨[], []⟩, none, []⟩).v, D.map (fun inst =>
        "http://" ++ inst.AWSHost ++ ":" ++ toString inst.AWSPort ++ inst.AWSURI), none) := by
    simp only [GetActiveHostList, activeLoop_eq, List.nil_append, hU]
    have hf : (D.map toUpstream).filter (fun u => u.Status) = D.map toUpstream := by
      apply List.filter_eq_self.2
      intro u hu
      obtain ⟨inst, _, rfl⟩ := List.mem_map.1 hu
      rfl
    rw [hf, List.map_map]
    rfl
  refine ⟨⟨(D.foldl (addStep slack 0) ⟨⟨[], []⟩, none, []⟩).v, none,
    (D.foldl (addStep slack 0) ⟨⟨[], []⟩, none, []⟩).calls,
    some (GetActiveHostList (D.foldl (addStep slack 0) ⟨⟨[], []⟩, none, []⟩).v).2.1.length⟩,
    rfl, rfl, hU, hact, ?_, ?_⟩
  · rw [hact]; simp
  · intro hD
    rw [hact]
    simpa using hD

/-- C14: LoadUpstreams can call DeleteUpstreamByHost for a host that the registry no
longer has, and then panics. The registry holds h:1, h:2, b:1 (two entries for host h)
and the directory returns no instance. No entry is added, so `uslist` and `v.UList`
share their array. Index 0: the delete of h removes the last entry with that host, h:2
at index 1, by copying b:1 over it. Index 1: `uslist[1]` now reads b:1, which is
deleted. Index 2: `uslist[2]` still reads the old cell b:1, and the second delete of b
finds `idx = -1`: index out of range. This holds for every capacity of the slice, and
such a registry is what VMUpstreamsInitialize builds from a directory result that lists
host h twice. -/
theorem C14_reconcile_deletes_absent_host (slack : Nat → Nat) (spare : List VMUpstream) :
    LoadUpstreams slack (Except.ok [])
      ⟨[⟨"h", true, 1, "/w"⟩, ⟨"h", true, 2, "/w"⟩, ⟨"b", true, 1, "/w"⟩], spare⟩ = none ∧
    deleteLoop [] 2 0
        ⟨⟨[⟨"h", true, 1, "/w"⟩, ⟨"h", true, 2, "/w"⟩, ⟨"b", true, 1, "/w"⟩], spare⟩, none, []⟩
      = some ⟨⟨[⟨"h", true, 1, "/w"⟩], ⟨"b", true, 1, "/w"⟩ :: ⟨"b", true, 1, "/w"⟩ :: spare⟩,
              none, [Call.delete "h", Call.delete "b"]⟩ ∧
    uslistGet ⟨⟨[⟨"h", true, 1, "/w"⟩],
        ⟨"b", true, 1, "/w"⟩ :: ⟨"b", true, 1, "/w"⟩ :: spare⟩, none,
        [Call.delete "h", Call.delete "b"]⟩ 2 = some ⟨"b", true, 1, "/w"⟩ ∧
    DeleteUpstreamByHost
      ⟨[⟨"h", true, 1, "/w"⟩], ⟨"b", true, 1, "/w"⟩ :: ⟨"b", true, 1, "/w"⟩ :: spare⟩ "b"
      = none ∧
    ∃ res, VMUpstreamsInitialize slack
        (Except.ok [⟨"h", "/w", 1, "i-1", "vm-1"⟩, ⟨"h", "/w", 2, "i-2", "vm-2"⟩,
                    ⟨"b", "/w", 1, "i-3", "vm-3"⟩]) ⟨[], []⟩ = some res ∧
      LoadUpstreams slack (Except.ok []) res.v = none := by
  refine ⟨reconcile_stale_read_panics slack spare, ?_, ?_, ?_, ?_⟩
  · simp [deleteLoop, deleteStep, uslistGet, DeleteUpstreamByHost, findIdx]
  · simp [uslistGet]
  · simp [DeleteUpstreamByHost, findIdx]
  · obtain ⟨res, h1, _, h2⟩ := LoadUpstreams_zero_registry slack
      [⟨"h", "/w", 1, "i-1", "vm-1"⟩, ⟨"h", "/w", 2, "i-2", "vm-2"⟩,
       ⟨"b", "/w", 1, "i-3", "vm-3"⟩]
    refine ⟨res, h1, ?_⟩
    have hv : res.v = ⟨[⟨"h", true, 1, "/w"⟩, ⟨"h", true, 2, "/w"⟩, ⟨"b", true, 1, "/w"⟩],
        res.v.spare⟩ := by
      cases hres : res.v with
      | mk ul sp =>
        rw [hres] at h2
        simp only at h2
        rw [h2]
        rfl
    rw [hv]
    exact reconcile_stale_read_panics slack res.v.spare

end vmupstreams

namespace vmhandlers

theorem afterSend_timeouts (r : HTTPResponse) (m : Metrics) :
    (afterSend r m).eventsFailedTimeouts = m.eventsFailedTimeouts := by
  unfold afterSend
  cases r.err with
  | some e => rfl
  | none =>
    cases r.response with
    | none => rfl
    | some code => by_cases h : code = 204 <;> simp [h]

/-- While fewer outcomes have arrived than there are forwards, the loop is still in its
`select`: a timeout case only counts and goes round again. -/
theorem collect_waiting (forwards : List HTTPForward) (cases : List SelectCase)
    (responses : List HTTPResponse) (m : Metrics)
    (h : responses.length + receives cases < forwards.length) :
    ∃ rs m1, collect forwards cases responses m = Collect.waiting rs m1 ∧
      rs.length = responses.length + receives cases ∧
      m1.eventsFailedTimeouts = m.eventsFailedTimeouts + expiries cases := by
  induction cases generalizing responses m with
  | nil => exact ⟨responses, m, rfl, rfl, rfl⟩
  | cons c rest ih =>
    cases c with
    | receive r =>
      simp only [receives] at h
      have hne : ¬ (responses ++ [r]).length = forwards.length := by
        simp only [List.length_append, List.length_singleton]; omega
      obtain ⟨rs, m1, h1, h2, h3⟩ := ih (responses ++ [r]) (afterSend r m)
        (by simp only [List.length_append, List.length_singleton]; omega)
      refine ⟨rs, m1, ?_, ?_, ?_⟩
      · simp only [collect, hne, if_false, h1]
      · simp only [List.length_append, List.length_singleton] at h2
        simp only [receives]; omega
      · rw [h3, afterSend_timeouts]; rfl
    | timeout =>
      simp only [receives] at h
      obtain ⟨rs, m1, h1, h2, h3⟩ := ih responses
        { m with eventsFailedTimeouts := m.eventsFailedTimeouts + 1 } h
      refine ⟨rs, m1, ?_, ?_, ?_⟩
      · simp only [collect, h1]
      · simpa only [receives] using h2
      · rw [h3]; simp only [expiries]; omega

/-- C10: when fewer outcomes arrive than there are forwards (at least one forward never
delivers), the collection loop of asyncHTTPPost has not returned after any sequence of
select cases, however many 500 ms windows expire in it: it is still waiting, with the
outcomes received so far. Each expired window adds exactly one to eventsFailedTimeouts.
The return at the expiry of the window that the claim describes is not in the code. -/
theorem C10_collection_does_not_stop_at_expiry (forwards : List HTTPForward)
    (cases : List SelectCase) (m : Metrics) (h : receives cases < forwards.length) :
    ∃ rs m1, asyncHTTPPost forwards cases m = Collect.waiting rs m1 ∧
      rs.length = receives cases ∧
      m1.eventsFailedTimeouts = m.eventsFailedTimeouts + expiries cases := by
  obtain ⟨rs, m1, h1, h2, h3⟩ := collect_waiting forwards cases []
    { m with eventsTotalProcessed := m.eventsTotalProcessed + 1 } (by simpa using h)
  exact ⟨rs, m1, h1, by simpa using h2, h3⟩

/-- C10 at a concrete input: two forwards, one outcome, then three expired windows. -/
theorem C10_collection_does_not_stop_at_expiry_witness :
    receives [SelectCase.receive ⟨"http://10.0.0.1:8428/api/v1/write", some 204, none⟩,
         SelectCase.timeout, SelectCase.timeout, SelectCase.timeout] < 2 ∧
    ∃ rs m1,
      asyncHTTPPost [⟨"http://10.0.0.1:8428/api/v1/write", []⟩,
                     ⟨"http://10.0.0.2:8428/api/v1/write", []⟩]
        [SelectCase.receive ⟨"http://10.0.0.1:8428/api/v1/write", some 204, none⟩,
         SelectCase.timeout, SelectCase.timeout, SelectCase.timeout] ⟨0, 0, 0, 0⟩
        = Collect.waiting rs m1 ∧
      rs.length = 1 ∧ m1.eventsFailedTimeouts = 0 + 3 :=
  ⟨by decide, C10_collection_does_not_stop_at_expiry _ _ _ (by decide)⟩

/-! ### The counters of the sending goroutines -/

theorem receives_eq_length (cases : List SelectCase) :
    receives cases = (received cases).length := by
  induction cases with
  | nil => rfl
  | cons c rest ih => cases c <;> simp [receives, received, ih]

theorem afterSend_total (r : HTTPResponse) (m : Metrics) :
    (afterSend r m).eventsTotalProcessed = m.eventsTotalProcessed := by
  unfold afterSend
  cases r.err with
  | some e => rfl
  | none =>
    cases r.response with
    | none => rfl
    | some code => by_cases h : code = 204 <;> simp [h]

theorem afterSend_succeed (r : HTTPResponse) (m : Metrics) :
    (afterSend r m).eventsSucceedProcessed
      = m.eventsSucceedProcessed + (if isSucceeded r then 1 else 0) := by
  unfold afterSend isSucceeded
  cases r.err with
  | some e => simp
  | none =>
    cases r.response with
    | none => simp
    | some code => by_cases h : code = 204 <;> simp [h]

theorem afterSend_failed (r : HTTPResponse) (m : Metrics) :
    (afterSend r m).eventsFailedProcessed
      = m.eventsFailedProcessed + (if isFailed r then 1 else 0) := by
  unfold afterSend isFailed
  cases r.err with
  | some e => simp
  | none =>
    cases r.response with
    | none => simp
    | some code => by_cases h : code = 204 <;> simp [h]

/-- An outcome that carries an error or a response is counted exactly once. -/
theorem isSucceeded_eq_not_isFailed (r : HTTPResponse)
    (h : r.err ≠ none ∨ r.response ≠ none) : isSucceeded r = !isFailed r := by
  unfold isSucceeded isFailed
  cases herr : r.err with
  | some e => simp
  | none =>
    cases hresp : r.response with
    | none => simp [herr, hresp] at h
    | some code => by_cases hc : code = 204 <;> simp [hc]

theorem countP_succeeded_add_failed (rs : List HTTPResponse)
    (h : ∀ r ∈ rs, r.err ≠ none ∨ r.response ≠ none) :
    rs.countP isSucceeded + rs.countP isFailed = rs.length := by
  induction rs with
  | nil => rfl
  | cons r t ih =>
    have h1 := isSucceeded_eq_not_isFailed r (h r (List.mem_cons_self r t))
    have h2 := ih (fun x hx => h x (List.mem_cons_of_mem r hx))
    simp only [List.countP_cons, List.length_cons, h1]
    cases isFailed r <;> simp <;> omega

/-! ### The collection loop -/

/-- When `k` more outcomes are needed and at least `k` arrive, the loop returns at the
`k`-th of them, with the outcomes in arrival order; the timeout cases in between only
count. -/
theorem collect_returns (forwards : List HTTPForward) (cases : List SelectCase)
    (responses : List HTTPResponse) (m : Metrics) (k : Nat)
    (hk : responses.length + k = forwards.length) (hk1 : 1 ≤ k) (hk2 : k ≤ receives cases) :
    ∃ m1, collect forwards cases responses m
        = Collect.returned (responses ++ (received cases).take k) m1 ∧
      m1.eventsTotalProcessed = m.eventsTotalProcessed ∧
      m1.eventsSucceedProcessed
        = m.eventsSucceedProcessed + ((received cases).take k).countP isSucceeded ∧
      m1.eventsFailedProcessed
        = m.eventsFailedProcessed + ((received cases).take k).countP isFailed := by
  induction cases generalizing responses m k with
  | nil => simp [receives] at hk2; omega
  | cons c rest ih =>
    cases c with
    | receive r =>
      obtain ⟨k1, rfl⟩ : ∃ k1, k = k1 + 1 := ⟨k - 1, by omega⟩
      by_cases hlast : (responses ++ [r]).length = forwards.length
      · have hk0 : k1 = 0 := by
          simp only [List.length_append, List.length_singleton] at hlast; omega
        subst hk0
        refine ⟨afterSend r m, ?_, afterSend_total r m, ?_, ?_⟩
        · simp only [collect, hlast, if_true, received, List.take_succ_cons, List.take_zero]
        · rw [afterSend_succeed]; simp [received, List.countP_cons]
        · rw [afterSend_failed]; simp [received, List.countP_cons]
      · have hk3 : 1 ≤ k1 := by
          simp only [List.length_append, List.length_singleton] at hlast; omega
        obtain ⟨m1, h1, h2, h3, h4⟩ := ih (responses ++ [r]) (afterSend r m) k1
          (by simp only [List.length_append, List.length_singleton]; omega) hk3
          (by simp only [receives] at hk2; omega)
        refine ⟨m1, ?_, ?_, ?_, ?_⟩
        · simp only [collect, hlast, if_false, h1, received, List.take_succ_cons,
            List.append_assoc, List.singleton_append]
        · rw [h2, afterSend_total]
        · rw [h3, afterSend_succeed]
          simp only [received, List.take_succ_cons, List.countP_cons]; omega
        · rw [h4, afterSend_failed]
          simp only [received, List.take_succ_cons, List.countP_cons]; omega
    | timeout =>
      obtain ⟨m1, h1, h2, h3, h4⟩ := ih responses
        { m with eventsFailedTimeouts := m.eventsFailedTimeouts + 1 } k hk hk1
        (by simpa only [receives] using hk2)
      exact ⟨m1, by simp only [collect, h1, received], h2, h3, h4⟩

/-- With no forward the exit test of the loop is never true: whatever the select cases,
the loop is still waiting, and each timeout case has added one to eventsFailedTimeouts. -/
theorem collect_no_forwards (cases : List SelectCase) (responses : List HTTPResponse)
    (m : Metrics) :
    ∃ m1, collect [] cases responses m = Collect.waiting (responses ++ received cases) m1 ∧
      m1.eventsFailedTimeouts = m.eventsFailedTimeouts + expiries cases := by
  induction cases generalizing responses m with
  | nil => exact ⟨m, by simp [collect, received], rfl⟩
  | cons c rest ih =>
    cases c with
    | receive r =>
      obtain ⟨m1, h1, h2⟩ := ih (responses ++ [r]) (afterSend r m)
      refine ⟨m1, ?_, ?_⟩
      · simp [collect, h1, received]
      · rw [h2, afterSend_timeouts]; rfl
    | timeout =>
      obtain ⟨m1, h1, h2⟩ := ih responses
        { m with eventsFailedTimeouts := m.eventsFailedTimeouts + 1 }
      refine ⟨m1, by simp only [collect, h1, received], ?_⟩
      rw [h2]; simp only [expiries]; omega

/-- A return of the loop happens at a receive case: the cases before it left the loop
waiting, and the received outcome brought the number of outcomes to `len(forwards)`. -/
theorem collect_returned_inv (forwards : List HTTPForward) (cases : List SelectCase)
    (responses rs : List HTTPResponse) (m m1 : Metrics)
    (h : collect forwards cases responses m = Collect.returned rs m1) :
    ∃ pre r post m0, cases = pre ++ SelectCase.receive r :: post ∧
      collect forwards pre responses m = Collect.waiting (responses ++ received pre) m0 ∧
      rs = responses ++ received pre ++ [r] ∧ rs.length = forwards.length := by
  induction cases generalizing responses m with
  | nil => simp [collect] at h
  | cons c rest ih =>
    cases c with
    | receive r =>
      by_cases hlast : (responses ++ [r]).length = forwards.length
      · simp only [collect, hlast, if_true, Collect.returned.injEq] at h
        refine ⟨[], r, rest, m, rfl, by simp [collect, received], ?_, ?_⟩
        · simp [received, h.1.symm]
        · rw [← h.1]; exact hlast
      · simp only [collect, hlast, if_false] at h
        obtain ⟨pre, r1, post, m0, h1, h2, h3, h4⟩ := ih (responses ++ [r]) (afterSend r m) h
        refine ⟨SelectCase.receive r :: pre, r1, post, m0, by simp [h1], ?_, ?_, h4⟩
        · simp only [collect, hlast, if_false, h2, received, List.append_assoc,
            List.singleton_append]
        · simp [h3, received]
    | timeout =>
      simp only [collect] at h
      obtain ⟨pre, r1, post, m0, h1, h2, h3, h4⟩ := ih responses _ h
      refine ⟨SelectCase.timeout :: pre, r1, post, m0, by simp [h1], ?_, ?_, h4⟩
      · simp only [collect, h2, received]
      · simp [h3, received]

theorem expiries_replicate (k : Nat) :
    expiries (List.replicate k SelectCase.timeout) = k := by
  induction k with
  | zero => rfl
  | succ k ih => simp [List.replicate_succ, expiries, ih]

theorem received_replicate (k : Nat) :
    received (List.replicate k SelectCase.timeout) = [] := by
  induction k with
  | zero => rfl
  | succ k ih => simp [List.replicate_succ, received, ih]

theorem sentOutcome_urls (forwards : List HTTPForward)
    (results : List (Option Int × Option String)) (h : results.length = forwards.length) :
    (List.zipWith sentOutcome forwards results).map HTTPResponse.url
      = forwards.map HTTPForward.URL := by
  induction forwards generalizing results with
  | nil => simp
  | cons f t ih =>
    cases results with
    | nil => simp at h
    | cons r rt =>
      simp only [List.zipWith_cons_cons, List.map_cons, sentOutcome]
      rw [ih rt (by simpa using h)]

/-- The forwards that PromHandler builds: one per URL of the host list, each with the
request body. -/
theorem forwardLoop_eq_map (reqBody : List Nat) (hostList : List String)
    (acc : List HTTPForward) :
    hostList.foldl
        (fun fs host => fs ++ [({ URL := host, ReqBody := reqBody } : HTTPForward)]) acc
      = acc ++ hostList.map (fun host => ({ URL := host, ReqBody := reqBody } : HTTPForward)) := by
  induction hostList generalizing acc with
  | nil => simp
  | cons a t ih => simp [List.foldl_cons, ih]

/-- C11: for `N >= 1` forwards whose goroutines all deliver their outcome (the outcomes
that arrive are, in some order, the outcomes sent for the forwards, with any number of
expired windows in between), asyncHTTPPost returns exactly the `N` outcomes in arrival
order, one per forward. eventsTotalProcessed has grown by one, eventsSucceedProcessed by
the number of outcomes without error and with status 204, eventsFailedProcessed by the
number of outcomes with an error or with another status; an outcome that carries an
error or a response (what `client.Do` returns) is counted in exactly one of the two.
The counters are those reached when every sending goroutine has run to its end. -/
theorem C11_fan_out_completeness (forwards : List HTTPForward)
    (results : List (Option Int × Option String)) (cases : List SelectCase) (m : Metrics)
    (hN : 1 ≤ forwards.length) (hlen : results.length = forwards.length)
    (harr : (received cases).Perm (List.zipWith sentOutcome forwards results)) :
    ∃ m1, asyncHTTPPost forwards cases m = Collect.returned (received cases) m1 ∧
      (received cases).length = forwards.length ∧
      ((received cases).map HTTPResponse.url).Perm (forwards.map HTTPForward.URL) ∧
      m1.eventsTotalProcessed = m.eventsTotalProcessed + 1 ∧
      m1.eventsSucceedProcessed
        = m.eventsSucceedProcessed + (received cases).countP isSucceeded ∧
      m1.eventsFailedProcessed
        = m.eventsFailedProcessed + (received cases).countP isFailed ∧
      (∀ r ∈ received cases, r.err ≠ none ∨ r.response ≠ none →
        isSucceeded r = !isFailed r) ∧
      ((∀ r ∈ received cases, r.err ≠ none ∨ r.response ≠ none) →
        (received cases).countP isSucceeded + (received cases).countP isFailed
          = forwards.length) := by
  have hl : (received cases).length = forwards.length := by
    rw [harr.length_eq, List.length_zipWith, hlen, Nat.min_self]
  obtain ⟨m1, h1, h2, h3, h4⟩ := collect_returns forwards cases []
    { m with eventsTotalProcessed := m.eventsTotalProcessed + 1 } forwards.length
    (by simp) hN (by rw [receives_eq_length, hl])
  have htake : (received cases).take forwards.length = received cases := by
    rw [← hl, List.take_length]
  rw [htake] at h1 h3 h4
  refine ⟨m1, by simpa [asyncHTTPPost] using h1, hl, ?_, h2, h3, h4, ?_, ?_⟩
  · rw [← sentOutcome_urls forwards results hlen]
    exact harr.map HTTPResponse.url
  · intro r _ hr
    exact isSucceeded_eq_not_isFailed r hr
  · intro hwf
    rw [countP_succeeded_add_failed _ hwf, hl]

/-- C11 at a concrete input: two forwards; the second answers first with 204, a window
expires, then the first answers with 500. -/
theorem C11_fan_out_completeness_witness :
    (received [SelectCase.receive ⟨"http://10.0.0.2:8428/api/v1/write", some 204, none⟩,
        SelectCase.timeout,
        SelectCase.receive ⟨"http://10.0.0.1:8428/api/v1/write", some 500, none⟩]).Perm
      (List.zipWith sentOutcome
        [⟨"http://10.0.0.1:8428/api/v1/write", [1, 2]⟩,
         ⟨"http://10.0.0.2:8428/api/v1/write", [1, 2]⟩]
        [(some 500, none), (some 204, none)]) ∧
    ∃ m1, asyncHTTPPost
        [⟨"http://10.0.0.1:8428/api/v1/write", [1, 2]⟩,
         ⟨"http://10.0.0.2:8428/api/v1/write", [1, 2]⟩]
        [SelectCase.receive ⟨"http://10.0.0.2:8428/api/v1/write", some 204, none⟩,
         SelectCase.timeout,
         SelectCase.receive ⟨"http://10.0.0.1:8428/api/v1/write", some 500, none⟩]
        ⟨0, 0, 0, 0⟩
        = Collect.returned
            [⟨"http://10.0.0.2:8428/api/v1/write", some 204, none⟩,
             ⟨"http://10.0.0.1:8428/api/v1/write", some 500, none⟩] m1 ∧
      m1.eventsTotalProcessed = 1 ∧ m1.eventsSucceedProcessed = 1 ∧
      m1.eventsFailedProcessed = 1 := by
  have hp : (received [SelectCase.receive ⟨"http://10.0.0.2:8428/api/v1/write", some 204, none⟩,
        SelectCase.timeout,
        SelectCase.receive ⟨"http://10.0.0.1:8428/api/v1/write", some 500, none⟩]).Perm
      (List.zipWith sentOutcome
        [⟨"http://10.0.0.1:8428/api/v1/write", [1, 2]⟩,
         ⟨"http://10.0.0.2:8428/api/v1/write", [1, 2]⟩]
        [(some 500, none), (some 204, none)]) := List.Perm.swap _ _ _
  obtain ⟨m1, h1, _, _, h2, h3, h4, _, _⟩ := C11_fan_out_completeness
    [⟨"http://10.0.0.1:8428/api/v1/write", [1, 2]⟩,
     ⟨"http://10.0.0.2:8428/api/v1/write", [1, 2]⟩]
    [(some 500, none), (some 204, none)]
    [SelectCase.receive ⟨"http://10.0.0.2:8428/api/v1/write", some 204, none⟩,
     SelectCase.timeout,
     SelectCase.receive ⟨"http://10.0.0.1:8428/api/v1/write", some 500, none⟩]
    ⟨0, 0, 0, 0⟩ (by decide) rfl hp
  exact ⟨hp, m1, h1, by simpa using h2, by rw [h3]; decide, by rw [h4]; decide⟩

/-- C13: what PromHandler writes. When reading the body fails it counts a failed event,
writes 417 and builds no forward. When reading succeeds it builds one forward per URL of
the active host list, each with the whole body, and the only status it can write is 200,
which it writes once asyncHTTPPost has returned, whatever the outcomes were. But the
status is not written at all while asyncHTTPPost has not returned: with no active target
the handler never writes a status, whatever select cases occur, and with an active
target that delivers no outcome it does not write one either. So the status does not
depend on the body alone, as the claim has it. -/
theorem C13_write_status :
    (∀ (v : vmupstreams.VMUpstreams) (e : String) (cases : List SelectCase) (m : Metrics),
      PromHandler v (Except.error e) cases m
        = ⟨some 417, [], { m with eventsFailedProcessed := m.eventsFailedProcessed + 1 }⟩) ∧
    (∀ (v : vmupstreams.VMUpstreams) (reqBody : List Nat) (cases : List SelectCase)
        (m : Metrics),
      (PromHandler v (Except.ok reqBody) cases m).httpforwards
        = (vmupstreams.GetActiveHostList v).2.1.map (fun host => ⟨host, reqBody⟩)) ∧
    (∀ (v : vmupstreams.VMUpstreams) (reqBody : List Nat) (cases : List SelectCase)
        (m : Metrics),
      1 ≤ (vmupstreams.GetActiveHostList v).2.1.length →
      (vmupstreams.GetActiveHostList v).2.1.length ≤ receives cases →
      (PromHandler v (Except.ok reqBody) cases m).status = some 200) ∧
    (∀ (v : vmupstreams.VMUpstreams) (reqBody : List Nat) (cases : List SelectCase)
        (m : Metrics),
      receives cases < (vmupstreams.GetActiveHostList v).2.1.length →
      (PromHandler v (Except.ok reqBody) cases m).status = none) ∧
    (∀ (v : vmupstreams.VMUpstreams) (reqBody : List Nat) (cases : List SelectCase)
        (m : Metrics),
      (vmupstreams.GetActiveHostList v).2.1 = [] →
      (PromHandler v (Except.ok reqBody) cases m).status = none) ∧
    (∀ (reqBody : List Nat) (cases : List SelectCase) (m : Metrics),
      (PromHandler ⟨[], []⟩ (Except.ok reqBody) cases m).status = none) := by
  have hfw : ∀ (v : vmupstreams.VMUpstreams) (reqBody : List Nat),
      (vmupstreams.GetActiveHostList v).2.1.foldl
        (fun fs host => fs ++ [({ URL := host, ReqBody := reqBody } : HTTPForward)]) []
      = (vmupstreams.GetActiveHostList v).2.1.map (fun host => ⟨host, reqBody⟩) := by
    intro v reqBody
    rw [forwardLoop_eq_map]; rfl
  have hempty : ∀ (v : vmupstreams.VMUpstreams) (reqBody : List Nat)
      (cases : List SelectCase) (m : Metrics),
      (vmupstreams.GetActiveHostList v).2.1 = [] →
      (PromHandler v (Except.ok reqBody) cases m).status = none := by
    intro v reqBody cases m h0
    obtain ⟨m1, h1, _⟩ := collect_no_forwards cases []
      { m with eventsTotalProcessed := m.eventsTotalProcessed + 1 }
    simp only [PromHandler, h0, List.foldl_nil, asyncHTTPPost, h1]
  refine ⟨fun _ _ _ _ => rfl, ?_, ?_, ?_, hempty, ?_⟩
  · intro v reqBody cases m
    simp only [PromHandler, hfw]
    split <;> rfl
  · intro v reqBody cases m hN hrec
    obtain ⟨m1, h1, _⟩ := collect_returns
      ((vmupstreams.GetActiveHostList v).2.1.map (fun host => (⟨host, reqBody⟩ : HTTPForward)))
      cases [] { m with eventsTotalProcessed := m.eventsTotalProcessed + 1 }
      (vmupstreams.GetActiveHostList v).2.1.length (by simp) hN hrec
    simp only [PromHandler, hfw, asyncHTTPPost, h1]
  · intro v reqBody cases m hlt
    obtain ⟨rs, m1, h1, _⟩ := collect_waiting
      ((vmupstreams.GetActiveHostList v).2.1.map (fun host => (⟨host, reqBody⟩ : HTTPForward)))
      cases [] { m with eventsTotalProcessed := m.eventsTotalProcessed + 1 }
      (by simpa using hlt)
    simp only [PromHandler, hfw, asyncHTTPPost, h1]
  · intro reqBody cases m
    exact hempty ⟨[], []⟩ reqBody cases m rfl

/-- C15: the collection loop of asyncHTTPPost returns only at a receive case, the one
that brings the number of collected outcomes to `len(forwards)`, the cases before it
having left the loop waiting; a timeout case adds one to eventsFailedTimeouts and goes
on with the remaining cases. With an empty forward list no sequence of select cases
makes the loop return, and eventsFailedTimeouts grows by one for each expired window:
after `k` expired windows it has grown by `k`, for every `k`. -/
theorem C15_collection_exit_condition :
    (∀ (forwards : List HTTPForward) (cases : List SelectCase) (m : Metrics)
        (rs : List HTTPResponse) (m1 : Metrics),
      asyncHTTPPost forwards cases m = Collect.returned rs m1 →
      ∃ pre r post m0, cases = pre ++ SelectCase.receive r :: post ∧
        asyncHTTPPost forwards pre m = Collect.waiting (received pre) m0 ∧
        rs = received pre ++ [r] ∧ rs.length = forwards.length) ∧
    (∀ (forwards : List HTTPForward) (rest : List SelectCase) (responses : List HTTPResponse)
        (m : Metrics),
      collect forwards (SelectCase.timeout :: rest) responses m
        = collect forwards rest responses
            { m with eventsFailedTimeouts := m.eventsFailedTimeouts + 1 }) ∧
    (∀ (cases : List SelectCase) (m : Metrics),
      ∃ m1, asyncHTTPPost [] cases m = Collect.waiting (received cases) m1 ∧
        m1.eventsFailedTimeouts = m.eventsFailedTimeouts + expiries cases) ∧
    (∀ (k : Nat) (m : Metrics),
      ∃ m1, asyncHTTPPost [] (List.replicate k SelectCase.timeout) m = Collect.waiting [] m1 ∧
        m1.eventsFailedTimeouts = m.eventsFailedTimeouts + k) := by
  have hnone : ∀ (cases : List SelectCase) (m : Metrics),
      ∃ m1, asyncHTTPPost [] cases m = Collect.waiting (received cases) m1 ∧
        m1.eventsFailedTimeouts = m.eventsFailedTimeouts + expiries cases := by
    intro cases m
    obtain ⟨m1, h1, h2⟩ := collect_no_forwards cases []
      { m with eventsTotalProcessed := m.eventsTotalProcessed + 1 }
    exact ⟨m1, by simpa [asyncHTTPPost] using h1, h2⟩
  refine ⟨?_, fun _ _ _ _ => rfl, hnone, ?_⟩
  · intro forwards cases m rs m1 h
    obtain ⟨pre, r, post, m0, h1, h2, h3, h4⟩ := collect_returned_inv forwards cases [] rs
      { m with eventsTotalProcessed := m.eventsTotalProcessed + 1 } m1 h
    exact ⟨pre, r, post, m0, h1, by simpa [asyncHTTPPost] using h2, by simpa using h3, h4⟩
  · intro k m
    obtain ⟨m1, h1, h2⟩ := hnone (List.replicate k SelectCase.timeout) m
    rw [received_replicate] at h1
    rw [expiries_replicate] at h2
    exact ⟨m1, h1, h2⟩

end vmhandlers
